import Mathlib

set_option maxHeartbeats 1000000

/-!
Verification of the WebSocket bridge broker of chrome-cursor-mcp:
`BridgeServer.handle_client` in `src/server/src/chrome_mcp/bridge.py`, and
its duplicated variant `_BridgeServer.handle_client` in
`src/chrome-mcp/src/chrome_mcp/server.py`.

The broker state (extension slot, controller set, pending map) is embedded
shallowly; the interleaved per-connection receive loops are modelled as one
stream of atomic events (a connection is accepted, a frame is received, a
receive loop ends), matching the single-threaded asyncio event loop that
serialises all of the source's state mutations.  Python dicts become
association lists with unique keys, Python sets become membership lists, and
the scalar JSON values that participate in dispatch become the `PyVal` type
with Python truthiness, equality and str() coercion.
-/

namespace Bridge

/-- Connection handles, by stable identity (`ws`). -/
abbrev ConnId := Nat

/-- Scalar Python/JSON values as the broker's dispatch sees them:
`None`, booleans, integers and strings. -/
inductive PyVal where
  | PNone : PyVal
  | PBool : Bool → PyVal
  | PInt : Int → PyVal
  | PStr : String → PyVal
deriving DecidableEq, Repr

/-- Python truthiness of a scalar value, as in `if msg.get("event"):`. -/
def pyTruthy : PyVal → Bool
  | .PNone => false
  | .PBool b => b
  | .PInt n => n != 0
  | .PStr s => s != ""

/-- Python `==` on scalar values, as in `msg.get("event") == "hello"`;
note `True == 1` and `False == 0` hold across bool/int in Python. -/
def pyEq : PyVal → PyVal → Bool
  | .PNone, .PNone => true
  | .PBool a, .PBool b => a == b
  | .PBool a, .PInt b => (if a then (1 : Int) else 0) == b
  | .PInt a, .PBool b => a == (if b then (1 : Int) else 0)
  | .PInt a, .PInt b => a == b
  | .PStr a, .PStr b => a == b
  | _, _ => false

/-- Python `str()` of a scalar value, as applied to correlation ids in
`str(msg.get("id"))`. -/
def pyStr : PyVal → String
  | .PNone => "None"
  | .PBool b => if b then "True" else "False"
  | .PInt n => toString n
  | .PStr s => s

/-- A parsed JSON object frame, seen through the keys the broker inspects
("event", "tool", "id", "ok", "error"); `none` means the key is absent.
`extra` carries the remaining key/value payload (for example `args` or
`result`) so that forwarding a frame unchanged is meaningful. -/
structure Frame where
  event : Option PyVal := none
  tool : Option PyVal := none
  id : Option PyVal := none
  ok : Option PyVal := none
  error : Option PyVal := none
  extra : List (String × PyVal) := []
deriving DecidableEq, Repr

/-- Python `msg.get("event")`: the value under "event", or `None` if absent. -/
def Frame.getEvent (f : Frame) : PyVal := f.event.getD PyVal.PNone

/-- Python `msg.get("id")`: the value under "id", or `None` if absent. -/
def Frame.getId (f : Frame) : PyVal := f.id.getD PyVal.PNone

/-- The representation of the Python dict `pending_by_id`: an association
list whose keys stay unique (the invariant `keysNodup` below). -/
abbrev Pending := List (String × ConnId)

/-- Dict read, `d.get(k)`. -/
def dictLookup : Pending → String → Option ConnId
  | [], _ => none
  | (k', v) :: rest, k => if k = k' then some v else dictLookup rest k

/-- Dict assignment `d[k] = v`: update the entry in place when the key is
present, append it otherwise. -/
def dictSet : Pending → String → ConnId → Pending
  | [], k, v => [(k, v)]
  | (k', v') :: rest, k, v =>
      if k' = k then (k, v) :: rest else (k', v') :: dictSet rest k v

/-- Dict removal `d.pop(k, None)`, dropping the returned value. -/
def dictRemove : Pending → String → Pending
  | [], _ => []
  | (k', v') :: rest, k => if k' = k then rest else (k', v') :: dictRemove rest k

/-- Python `set.add`. -/
def insertConn (c : ConnId) (l : List ConnId) : List ConnId :=
  if c ∈ l then l else c :: l

/-- Python `set.discard`: remove if present, no-op otherwise. -/
def removeConn (c : ConnId) (l : List ConnId) : List ConnId :=
  l.filter (fun d => d != c)

/-- The branch of `handle_client`'s dispatch cascade that a parsed object
frame falls into, in source order. -/
inductive Branch where
  | hello : Branch
  | event : Branch
  | request : Branch
  | reply : Branch
  | other : Branch
deriving DecidableEq, Repr

/-- The successive shape checks of `handle_client`, in source order:
`msg.get("event") == "hello"`; then `msg.get("event")` truthy; then
`"tool" in msg and "id" in msg`; then `"id" in msg and ("ok" in msg or
"error" in msg)`; else the ignored fallback. -/
def classify (f : Frame) : Branch :=
  if pyEq f.getEvent (PyVal.PStr "hello") then Branch.hello
  else if pyTruthy f.getEvent then Branch.event
  else if f.tool.isSome && f.id.isSome then Branch.request
  else if f.id.isSome && (f.ok.isSome || f.error.isSome) then Branch.reply
  else Branch.other

/-- The broker state of `BridgeServer.__init__`. -/
structure BridgeState where
  extension_ws : Option ConnId := none
  controller_clients : List ConnId := []
  pending_by_id : Pending := []
deriving DecidableEq, Repr

/-- One attempted outbound send, `safe_send(dest, json.dumps(payload))`;
send failures are swallowed by the source, so an attempt never changes
broker state. -/
structure Send where
  dest : ConnId
  payload : Frame
deriving DecidableEq, Repr

/-- The broker state together with the transport facts the source reads
through connection handles: which connections are currently open, and which
connections have set their local `is_extension` flag (those that sent a
hello frame). -/
structure World where
  st : BridgeState := {}
  openConns : List ConnId := []
  helloed : List ConnId := []
deriving DecidableEq, Repr

/-- The freshly started broker. -/
def World.init : World := {}

/-- An event of the interleaved receive loops: a connection is accepted
(`handle_client` entered), a text frame arrives on an open connection
(`some f` a parsed object, `none` an unparseable or non-object payload), or
a receive loop ends and the `finally` cleanup runs. -/
inductive Event where
  | connect : ConnId → Event
  | recv : ConnId → Option Frame → Event
  | disconnect : ConnId → Event
deriving DecidableEq, Repr

/-- The synthesized error reply: id echoing `msg.get("id")`, ok `False`,
error "extension not connected". -/
def errorReply (idv : PyVal) : Frame :=
  { id := some idv, ok := some (PyVal.PBool false),
    error := some (PyVal.PStr "extension not connected") }

/-- The `finally` block's pending sweep: collect into `to_drop` the keys
mapped to the closing connection, then pop each of them. -/
def dropConn (p : Pending) (c : ConnId) : Pending :=
  ((p.filter (fun kv => kv.2 == c)).map Prod.fst).foldl dictRemove p

/-- One iteration of `BridgeServer.handle_client`'s message loop on a parsed
object frame from connection `c`: the resulting world and the list of
attempted sends, branch by branch as in the source. -/
def handleFrame (w : World) (c : ConnId) (f : Frame) : World × List Send :=
  match classify f with
  | Branch.hello =>
      ({ w with
          helloed := insertConn c w.helloed,
          st := { w.st with
            controller_clients := removeConn c w.st.controller_clients,
            extension_ws := some c } }, [])
  | Branch.event => (w, [])
  | Branch.request =>
      match w.st.extension_ws with
      | none => (w, [⟨c, errorReply f.getId⟩])
      | some ext =>
          ({ w with st := { w.st with
              pending_by_id := dictSet w.st.pending_by_id (pyStr f.getId) c } },
           [⟨ext, f⟩])
  | Branch.reply =>
      match dictLookup w.st.pending_by_id (pyStr f.getId) with
      | some t =>
          ({ w with st := { w.st with
              pending_by_id := dictRemove w.st.pending_by_id (pyStr f.getId) } },
           [⟨t, f⟩])
      | none =>
          ({ w with st := { w.st with
              pending_by_id := dictRemove w.st.pending_by_id (pyStr f.getId) } },
           [])
  | Branch.other => (w, [])

/-- One event of `BridgeServer.handle_client`: entry
(`controller_clients.add(ws)`), one loop iteration, or the `finally`
cleanup. -/
def step (w : World) : Event → World × List Send
  | Event.connect c =>
      ({ w with
          openConns := insertConn c w.openConns,
          st := { w.st with
            controller_clients := insertConn c w.st.controller_clients } }, [])
  | Event.recv _ none => (w, [])
  | Event.recv c (some f) => handleFrame w c f
  | Event.disconnect c =>
      ({ openConns := removeConn c w.openConns,
          helloed := removeConn c w.helloed,
          st := {
            extension_ws :=
              if c ∈ w.helloed ∧ w.st.extension_ws = some c then none
              else w.st.extension_ws,
            controller_clients := removeConn c w.st.controller_clients,
            pending_by_id := dropConn w.st.pending_by_id c } }, [])

/-- Final world after a sequence of events. -/
def run (w : World) : List Event → World
  | [] => w
  | e :: es => run (step w e).1 es

/-- All attempted sends along a sequence of events, in order. -/
def sendsOf (w : World) : List Event → List Send
  | [] => []
  | e :: es => (step w e).2 ++ sendsOf (step w e).1 es

/-- Transport sanity of one event: frames and closures come only from open
connections, and a freshly accepted connection is not already open. -/
def wfEvent (w : World) : Event → Bool
  | Event.connect c => !(decide (c ∈ w.openConns))
  | Event.recv c _ => decide (c ∈ w.openConns)
  | Event.disconnect c => decide (c ∈ w.openConns)

/-- Transport sanity of a whole event sequence. -/
def wfFrom (w : World) : List Event → Bool
  | [] => true
  | e :: es => wfEvent w e && wfFrom (step w e).1 es

/-- Worlds the broker can actually reach from the initial state by a
transport-sane event sequence. -/
def Reachable (w : World) : Prop :=
  ∃ tr, wfFrom World.init tr = true ∧ run World.init tr = w

/-- One iteration of `_BridgeServer.handle_client`'s loop (the duplicated
variant in `src/chrome-mcp/src/chrome_mcp/server.py`): the same cascade,
except that the reply branch guards the forward by
`target and not target.closed`. -/
def handleFrameB (w : World) (c : ConnId) (f : Frame) : World × List Send :=
  match classify f with
  | Branch.hello =>
      ({ w with
          helloed := insertConn c w.helloed,
          st := { w.st with
            controller_clients := removeConn c w.st.controller_clients,
            extension_ws := some c } }, [])
  | Branch.event => (w, [])
  | Branch.request =>
      match w.st.extension_ws with
      | none => (w, [⟨c, errorReply f.getId⟩])
      | some ext =>
          ({ w with st := { w.st with
              pending_by_id := dictSet w.st.pending_by_id (pyStr f.getId) c } },
           [⟨ext, f⟩])
  | Branch.reply =>
      match dictLookup w.st.pending_by_id (pyStr f.getId) with
      | some t =>
          ({ w with st := { w.st with
              pending_by_id := dictRemove w.st.pending_by_id (pyStr f.getId) } },
           if t ∈ w.openConns then [⟨t, f⟩] else [])
      | none =>
          ({ w with st := { w.st with
              pending_by_id := dictRemove w.st.pending_by_id (pyStr f.getId) } },
           [])
  | Branch.other => (w, [])

/-- One event of `_BridgeServer.handle_client`; its entry and `finally`
blocks are line-for-line those of `BridgeServer.handle_client`. -/
def stepB (w : World) : Event → World × List Send
  | Event.connect c =>
      ({ w with
          openConns := insertConn c w.openConns,
          st := { w.st with
            controller_clients := insertConn c w.st.controller_clients } }, [])
  | Event.recv _ none => (w, [])
  | Event.recv c (some f) => handleFrameB w c f
  | Event.disconnect c =>
      ({ openConns := removeConn c w.openConns,
          helloed := removeConn c w.helloed,
          st := {
            extension_ws :=
              if c ∈ w.helloed ∧ w.st.extension_ws = some c then none
              else w.st.extension_ws,
            controller_clients := removeConn c w.st.controller_clients,
            pending_by_id := dropConn w.st.pending_by_id c } }, [])

/-- Final world of the duplicated variant after a sequence of events. -/
def runB (w : World) : List Event → World
  | [] => w
  | e :: es => runB (stepB w e).1 es

/-- All attempted sends of the duplicated variant, in order. -/
def sendsOfB (w : World) : List Event → List Send
  | [] => []
  | e :: es => (stepB w e).2 ++ sendsOfB (stepB w e).1 es

/-- Unique keys: the representation invariant of a Python dict. -/
def keysNodup (p : Pending) : Prop := (p.map Prod.fst).Nodup

/-- The broker invariant: every pending target is a currently open
connection, pending keys are unique, and the extension slot only ever holds
a connection whose local `is_extension` flag is set. -/
def Inv (w : World) : Prop :=
  (∀ k c, dictLookup w.st.pending_by_id k = some c → c ∈ w.openConns) ∧
  keysNodup w.st.pending_by_id ∧
  (∀ c, w.st.extension_ws = some c → c ∈ w.helloed)

/-- How many times an event contributes a forwarded reply for correlation
key `k` in world `w`: a received frame on the reply branch whose coerced id
is `k` and whose pending lookup finds a target. -/
def replyHit (w : World) (k : String) : Event → Nat
  | Event.recv _ (some f) =>
      if classify f = Branch.reply ∧ pyStr f.getId = k ∧
          (dictLookup w.st.pending_by_id k).isSome = true then 1 else 0
  | _ => 0

/-- How many times an event registers correlation key `k` in world `w`: a
received frame on the request branch whose coerced id is `k`, forwarded
because the extension slot is occupied. -/
def regHit (w : World) (k : String) : Event → Nat
  | Event.recv _ (some f) =>
      if classify f = Branch.request ∧ pyStr f.getId = k ∧
          w.st.extension_ws.isSome = true then 1 else 0
  | _ => 0

/-- Total forwarded replies for key `k` along an event sequence. -/
def countReplyHits (w : World) (k : String) : List Event → Nat
  | [] => 0
  | e :: es => replyHit w k e + countReplyHits (step w e).1 k es

/-- Total registrations of key `k` along an event sequence. -/
def countRegs (w : World) (k : String) : List Event → Nat
  | [] => 0
  | e :: es => regHit w k e + countRegs (step w e).1 k es

/-- The extension's self-identifying frame. -/
def helloF : Frame := { event := some (PyVal.PStr "hello") }

/-- A concrete controller request with string id "1". -/
def reqF : Frame :=
  { tool := some (PyVal.PStr "navigate"), id := some (PyVal.PStr "1"),
    extra := [("args", PyVal.PStr "https://example.com")] }

/-- A concrete extension reply with string id "1". -/
def replyF : Frame :=
  { id := some (PyVal.PStr "1"), ok := some (PyVal.PBool true) }

/-- A concrete controller request whose id is the number 1. -/
def reqIntF : Frame :=
  { tool := some (PyVal.PStr "navigate"), id := some (PyVal.PInt 1) }

/-- Extension on connection 0 and a pending request ("1" from connection 1). -/
def trPend : List Event :=
  [Event.connect 0, Event.recv 0 (some helloF),
   Event.connect 1, Event.recv 1 (some reqF)]

/-- Extension on 0, then a tool request from connection 0 itself: the sender
is treated as a controller (its request is registered and forwarded). -/
def trC5a : List Event :=
  [Event.connect 9, Event.recv 9 (some helloF),
   Event.connect 0, Event.recv 0 (some reqF)]

/-- `trC5a` followed by a hello from the same connection 0. -/
def trC5 : List Event := trC5a ++ [Event.recv 0 (some helloF)]

/-- Extension on 0, pending request "1" from controller 1, then connection 2
sends hello and displaces 0 while 0 is still open. -/
def trC6a : List Event :=
  [Event.connect 0, Event.recv 0 (some helloF),
   Event.connect 1, Event.recv 1 (some reqF), Event.connect 2,
   Event.recv 2 (some helloF)]

/-- Extension on connection 0, controller connection 1 open, no request yet. -/
def trExt : List Event :=
  [Event.connect 0, Event.recv 0 (some helloF), Event.connect 1]

/-- A trace that never classifies an extension: a controller connects and
sends one request. -/
def trNoHello : List Event := [Event.connect 0, Event.recv 0 (some reqF)]

theorem mem_insertConn (c d : ConnId) (l : List ConnId) :
    d ∈ insertConn c l ↔ d = c ∨ d ∈ l := by
  by_cases h : c ∈ l
  · simp only [insertConn, if_pos h]
    exact ⟨Or.inr, fun hd => hd.elim (fun he => he ▸ h) id⟩
  · simp [insertConn, h, List.mem_cons]

theorem mem_removeConn (c d : ConnId) (l : List ConnId) :
    d ∈ removeConn c l ↔ d ∈ l ∧ d ≠ c := by
  simp [removeConn, List.mem_filter, bne_iff_ne]

theorem dictLookup_cons_self (k : String) (v : ConnId) (rest : Pending) :
    dictLookup ((k, v) :: rest) k = some v := by
  simp [dictLookup]

theorem dictLookup_cons_ne (k k' : String) (v : ConnId) (rest : Pending)
    (h : k' ≠ k) : dictLookup ((k, v) :: rest) k' = dictLookup rest k' := by
  simp [dictLookup, h]

theorem dictLookup_set_self (p : Pending) (k : String) (v : ConnId) :
    dictLookup (dictSet p k v) k = some v := by
  induction p with
  | nil => simp [dictSet, dictLookup]
  | cons head rest ih =>
      obtain ⟨k', v'⟩ := head
      by_cases h : k' = k
      · subst h
        simp [dictSet, dictLookup]
      · simp only [dictSet, if_neg h, dictLookup]
        rw [if_neg (fun hh => h hh.symm)]
        exact ih

theorem dictLookup_set_ne (p : Pending) (k k' : String) (v : ConnId)
    (h : k' ≠ k) : dictLookup (dictSet p k v) k' = dictLookup p k' := by
  induction p with
  | nil => simp [dictSet, dictLookup, h]
  | cons head rest ih =>
      obtain ⟨k₁, v₁⟩ := head
      by_cases h₁ : k₁ = k
      · subst h₁
        simp only [dictSet, if_pos rfl, dictLookup]
        rw [if_neg h]
        rw [if_neg (fun hh => h (hh.trans rfl))]
      · simp only [dictSet, if_neg h₁, dictLookup]
        by_cases h₂ : k' = k₁
        · rw [if_pos h₂, if_pos h₂]
        · rw [if_neg h₂, if_neg h₂]
          exact ih

theorem mem_keys_dictSet (p : Pending) (k a : String) (v : ConnId) :
    a ∈ (dictSet p k v).map Prod.fst ↔ a = k ∨ a ∈ p.map Prod.fst := by
  induction p with
  | nil => simp [dictSet]
  | cons head rest ih =>
      obtain ⟨k₁, v₁⟩ := head
      by_cases h₁ : k₁ = k
      · subst h₁
        simp [dictSet]
      · simp only [dictSet, if_neg h₁, List.map_cons, List.mem_cons, ih]
        tauto

theorem keysNodup_dictSet (p : Pending) (k : String) (v : ConnId)
    (h : keysNodup p) : keysNodup (dictSet p k v) := by
  induction p with
  | nil => simp [dictSet, keysNodup]
  | cons head rest ih =>
      obtain ⟨k₁, v₁⟩ := head
      simp only [keysNodup, List.map_cons, List.nodup_cons] at h
      by_cases h₁ : k₁ = k
      · subst h₁
        simpa [keysNodup, dictSet] using h
      · simp only [keysNodup, dictSet, if_neg h₁, List.map_cons, List.nodup_cons]
        refine ⟨?_, ih h.2⟩
        rw [mem_keys_dictSet]
        rintro (rfl | hmem)
        · exact h₁ rfl
        · exact h.1 hmem

theorem dictLookup_remove_ne (p : Pending) (k k' : String) (h : k' ≠ k) :
    dictLookup (dictRemove p k) k' = dictLookup p k' := by
  induction p with
  | nil => simp [dictRemove]
  | cons head rest ih =>
      obtain ⟨k₁, v₁⟩ := head
      by_cases h₁ : k₁ = k
      · subst h₁
        simp [dictRemove, dictLookup, h]
      · simp only [dictRemove, if_neg h₁, dictLookup]
        by_cases h₂ : k' = k₁
        · rw [if_pos h₂, if_pos h₂]
        · rw [if_neg h₂, if_neg h₂]
          exact ih

theorem dictLookup_none_of_not_mem_keys (p : Pending) (k : String)
    (h : k ∉ p.map Prod.fst) : dictLookup p k = none := by
  induction p with
  | nil => rfl
  | cons head rest ih =>
      obtain ⟨k₁, v₁⟩ := head
      simp only [List.map_cons, List.mem_cons] at h
      push_neg at h
      simp only [dictLookup, if_neg h.1]
      exact ih h.2

theorem dictLookup_remove_self (p : Pending) (k : String)
    (h : keysNodup p) : dictLookup (dictRemove p k) k = none := by
  induction p with
  | nil => rfl
  | cons head rest ih =>
      obtain ⟨k₁, v₁⟩ := head
      simp only [keysNodup, List.map_cons, List.nodup_cons] at h
      by_cases h₁ : k₁ = k
      · subst h₁
        simp only [dictRemove, if_pos rfl]
        exact dictLookup_none_of_not_mem_keys rest k₁ h.1
      · simp only [dictRemove, if_neg h₁, dictLookup]
        rw [if_neg (fun hh => h₁ hh.symm)]
        exact ih h.2

theorem keys_dictRemove_sublist (p : Pending) (k : String) :
    ((dictRemove p k).map Prod.fst).Sublist (p.map Prod.fst) := by
  induction p with
  | nil => simp [dictRemove]
  | cons head rest ih =>
      obtain ⟨k₁, v₁⟩ := head
      by_cases h₁ : k₁ = k
      · simp only [dictRemove, if_pos h₁, List.map_cons]
        exact List.sublist_cons_of_sublist _ (List.Sublist.refl _)
      · simp only [dictRemove, if_neg h₁, List.map_cons]
        exact List.Sublist.cons₂ _ ih

theorem keysNodup_dictRemove (p : Pending) (k : String)
    (h : keysNodup p) : keysNodup (dictRemove p k) :=
  List.Nodup.sublist (keys_dictRemove_sublist p k) h

theorem dictLookup_remove_none (p : Pending) (a k : String)
    (h : dictLookup p k = none) : dictLookup (dictRemove p a) k = none := by
  induction p with
  | nil => rfl
  | cons head rest ih =>
      obtain ⟨k₁, v₁⟩ := head
      simp only [dictLookup] at h
      by_cases h₂ : k = k₁
      · rw [if_pos h₂] at h
        exact absurd h (by simp)
      · rw [if_neg h₂] at h
        by_cases h₁ : k₁ = a
        · simp only [dictRemove, if_pos h₁]
          exact h
        · simp only [dictRemove, if_neg h₁, dictLookup, if_neg h₂]
          exact ih h

theorem dictLookup_of_mem (p : Pending) (k : String) (v : ConnId)
    (h : (k, v) ∈ p) : (dictLookup p k).isSome = true := by
  induction p with
  | nil => cases h
  | cons head rest ih =>
      obtain ⟨k₁, v₁⟩ := head
      rcases List.mem_cons.mp h with h₀ | h₀
      · cases h₀
        simp [dictLookup]
      · by_cases h₂ : k = k₁
        · simp [dictLookup, if_pos h₂]
        · simp only [dictLookup, if_neg h₂]
          exact ih h₀

theorem dictLookup_eq_some_iff_mem (p : Pending) (k : String) (v : ConnId)
    (h : keysNodup p) : dictLookup p k = some v ↔ (k, v) ∈ p := by
  induction p with
  | nil => simp [dictLookup]
  | cons head rest ih =>
      obtain ⟨k₁, v₁⟩ := head
      simp only [keysNodup, List.map_cons, List.nodup_cons] at h
      by_cases h₂ : k = k₁
      · rw [h₂, dictLookup_cons_self, List.mem_cons]
        constructor
        · intro h₀
          injection h₀ with hv
          exact Or.inl (by rw [hv])
        · rintro (h₀ | h₀)
          · injection h₀ with _ hv
            rw [hv]
          · exact absurd (dictLookup_of_mem rest k₁ v h₀)
              (by rw [dictLookup_none_of_not_mem_keys rest k₁ h.1]; simp)
      · rw [dictLookup_cons_ne k₁ k v₁ rest h₂, List.mem_cons, ih h.2]
        constructor
        · exact Or.inr
        · rintro (h₀ | h₀)
          · injection h₀ with hk _
            exact absurd hk h₂
          · exact h₀

theorem dictLookup_foldlRemove_not_mem (ks : List String) (p : Pending)
    (k : String) (h : k ∉ ks) :
    dictLookup (ks.foldl dictRemove p) k = dictLookup p k := by
  induction ks generalizing p with
  | nil => rfl
  | cons a ks ih =>
      simp only [List.mem_cons] at h
      push_neg at h
      simp only [List.foldl_cons]
      rw [ih (dictRemove p a) h.2, dictLookup_remove_ne p a k h.1]

theorem dictLookup_foldlRemove_none (ks : List String) (p : Pending)
    (k : String) (h : dictLookup p k = none) :
    dictLookup (ks.foldl dictRemove p) k = none := by
  induction ks generalizing p with
  | nil => exact h
  | cons a ks ih =>
      simp only [List.foldl_cons]
      exact ih _ (dictLookup_remove_none p a k h)

theorem keysNodup_foldlRemove (ks : List String) (p : Pending)
    (h : keysNodup p) : keysNodup (ks.foldl dictRemove p) := by
  induction ks generalizing p with
  | nil => exact h
  | cons a ks ih =>
      simp only [List.foldl_cons]
      exact ih _ (keysNodup_dictRemove p a h)

theorem dictLookup_foldlRemove_mem (ks : List String) (p : Pending)
    (k : String) (hn : keysNodup p) (h : k ∈ ks) :
    dictLookup (ks.foldl dictRemove p) k = none := by
  induction ks generalizing p with
  | nil => cases h
  | cons a ks ih =>
      simp only [List.foldl_cons]
      rcases List.mem_cons.mp h with rfl | hmem
      · exact dictLookup_foldlRemove_none ks _ k (dictLookup_remove_self p k hn)
      · exact ih (dictRemove p a) (keysNodup_dictRemove p a hn) hmem

theorem mem_dropKeys_iff (p : Pending) (c : ConnId) (k : String)
    (hn : keysNodup p) :
    k ∈ (p.filter (fun kv => kv.2 == c)).map Prod.fst ↔
      dictLookup p k = some c := by
  rw [List.mem_map]
  constructor
  · rintro ⟨⟨k₀, v₀⟩, hmem, hfst⟩
    rcases List.mem_filter.mp hmem with ⟨hp, hv⟩
    have hv' : v₀ = c := by simpa using hv
    have hk' : k₀ = k := hfst
    subst hv'
    subst hk'
    exact (dictLookup_eq_some_iff_mem p k₀ v₀ hn).mpr hp
  · intro hl
    exact ⟨(k, c), List.mem_filter.mpr
      ⟨(dictLookup_eq_some_iff_mem p k c hn).mp hl, by simp⟩, rfl⟩

theorem dictLookup_dropConn (p : Pending) (c : ConnId) (k : String)
    (hn : keysNodup p) :
    dictLookup (dropConn p c) k =
      if dictLookup p k = some c then none else dictLookup p k := by
  unfold dropConn
  by_cases h : dictLookup p k = some c
  · rw [if_pos h]
    exact dictLookup_foldlRemove_mem _ p k hn ((mem_dropKeys_iff p c k hn).mpr h)
  · rw [if_neg h]
    exact dictLookup_foldlRemove_not_mem _ p k
      (fun hk => h ((mem_dropKeys_iff p c k hn).mp hk))

theorem keysNodup_dropConn (p : Pending) (c : ConnId) (hn : keysNodup p) :
    keysNodup (dropConn p c) :=
  keysNodup_foldlRemove _ p hn

theorem Inv_init : Inv World.init :=
  ⟨fun k c h => by simp [World.init, dictLookup] at h,
   by simp [World.init, keysNodup],
   fun c h => by simp [World.init] at h⟩

theorem Inv_step (w : World) (e : Event) (hI : Inv w)
    (hwf : wfEvent w e = true) : Inv (step w e).1 := by
  obtain ⟨hPend, hNodup, hExt⟩ := hI
  cases e with
  | connect c =>
      exact ⟨fun k d h => (mem_insertConn c d _).mpr (Or.inr (hPend k d h)),
        hNodup, fun d h => hExt d h⟩
  | recv c m =>
      cases m with
      | none => exact ⟨hPend, hNodup, hExt⟩
      | some f =>
          have hopen : c ∈ w.openConns := by simpa [wfEvent] using hwf
          simp only [step]
          cases hb : classify f with
          | hello =>
              simp only [handleFrame, hb]
              refine ⟨hPend, hNodup, fun d h => ?_⟩
              injection h with h
              exact (mem_insertConn c d _).mpr (Or.inl h.symm)
          | event =>
              simp only [handleFrame, hb]
              exact ⟨hPend, hNodup, hExt⟩
          | request =>
              simp only [handleFrame, hb]
              cases hext : w.st.extension_ws with
              | none =>
                  exact ⟨hPend, hNodup,
                    fun d h => Option.noConfusion (hext.symm.trans h)⟩
              | some ext =>
                  refine ⟨fun k d h => ?_,
                    keysNodup_dictSet _ _ _ hNodup,
                    fun d h => hExt d (hext.trans h)⟩
                  by_cases hk : k = pyStr f.getId
                  · subst hk
                    rw [dictLookup_set_self] at h
                    injection h with h
                    exact h ▸ hopen
                  · rw [dictLookup_set_ne _ _ _ _ hk] at h
                    exact hPend k d h
          | reply =>
              simp only [handleFrame, hb]
              cases ht : dictLookup w.st.pending_by_id (pyStr f.getId) with
              | some t =>
                  refine ⟨fun k d h => ?_, keysNodup_dictRemove _ _ hNodup,
                    fun d h => hExt d h⟩
                  by_cases hk : k = pyStr f.getId
                  · subst hk
                    rw [dictLookup_remove_self _ _ hNodup] at h
                    cases h
                  · rw [dictLookup_remove_ne _ _ _ hk] at h
                    exact hPend k d h
              | none =>
                  refine ⟨fun k d h => ?_, keysNodup_dictRemove _ _ hNodup,
                    fun d h => hExt d h⟩
                  by_cases hk : k = pyStr f.getId
                  · subst hk
                    rw [dictLookup_remove_self _ _ hNodup] at h
                    cases h
                  · rw [dictLookup_remove_ne _ _ _ hk] at h
                    exact hPend k d h
          | other =>
              simp only [handleFrame, hb]
              exact ⟨hPend, hNodup, hExt⟩
  | disconnect c =>
      simp only [step]
      refine ⟨fun k d h => ?_, keysNodup_dropConn _ _ hNodup, fun d h => ?_⟩
      · rw [dictLookup_dropConn _ _ _ hNodup] at h
        by_cases hc : dictLookup w.st.pending_by_id k = some c
        · rw [if_pos hc] at h
          cases h
        · rw [if_neg hc] at h
          refine (mem_removeConn c d _).mpr ⟨hPend k d h, fun hdc => ?_⟩
          exact hc (hdc ▸ h)
      · by_cases hcond : c ∈ w.helloed ∧ w.st.extension_ws = some c
        · rw [if_pos hcond] at h
          cases h
        · rw [if_neg hcond] at h
          refine (mem_removeConn c d _).mpr ⟨hExt d h, fun hdc => ?_⟩
          exact hcond ⟨hExt c (hdc ▸ h), hdc ▸ h⟩

theorem Inv_run (w : World) (tr : List Event) (hI : Inv w)
    (hwf : wfFrom w tr = true) : Inv (run w tr) := by
  induction tr generalizing w with
  | nil => exact hI
  | cons e es ih =>
      simp only [wfFrom, Bool.and_eq_true] at hwf
      exact ih _ (Inv_step w e hI hwf.1) hwf.2

theorem Reachable_inv (w : World) (h : Reachable w) : Inv w := by
  obtain ⟨tr, hwf, hrun⟩ := h
  rw [← hrun]
  exact Inv_run _ tr Inv_init hwf

theorem handleFrameB_eq (w : World) (c : ConnId) (f : Frame) (hI : Inv w) :
    handleFrameB w c f = handleFrame w c f := by
  unfold handleFrame handleFrameB
  cases hb : classify f with
  | hello => rfl
  | event => rfl
  | other => rfl
  | request => rfl
  | reply =>
      cases ht : dictLookup w.st.pending_by_id (pyStr f.getId) with
      | none => rfl
      | some t =>
          have hmem := hI.1 _ t ht
          simp [hmem]

theorem stepB_eq (w : World) (e : Event) (hI : Inv w) : stepB w e = step w e := by
  cases e with
  | connect c => rfl
  | disconnect c => rfl
  | recv c m =>
      cases m with
      | none => rfl
      | some f => exact handleFrameB_eq w c f hI

theorem runB_eq (w : World) (tr : List Event) (hI : Inv w)
    (hwf : wfFrom w tr = true) :
    runB w tr = run w tr ∧ sendsOfB w tr = sendsOf w tr := by
  induction tr generalizing w with
  | nil => exact ⟨rfl, rfl⟩
  | cons e es ih =>
      simp only [wfFrom, Bool.and_eq_true] at hwf
      have hstep := stepB_eq w e hI
      have ihr := ih (step w e).1 (Inv_step w e hI hwf.1) hwf.2
      constructor
      · simp only [runB, run, hstep]
        exact ihr.1
      · simp only [sendsOfB, sendsOf, hstep]
        rw [ihr.2]

theorem keysNodup_step (w : World) (e : Event)
    (hn : keysNodup w.st.pending_by_id) :
    keysNodup (step w e).1.st.pending_by_id := by
  cases e with
  | connect c => exact hn
  | disconnect c => exact keysNodup_dropConn _ _ hn
  | recv c m =>
      cases m with
      | none => exact hn
      | some f =>
          simp only [step]
          cases hb : classify f with
          | hello =>
              simp only [handleFrame, hb]
              exact hn
          | event =>
              simp only [handleFrame, hb]
              exact hn
          | other =>
              simp only [handleFrame, hb]
              exact hn
          | request =>
              simp only [handleFrame, hb]
              cases hext : w.st.extension_ws with
              | none => exact hn
              | some ext => exact keysNodup_dictSet _ _ _ hn
          | reply =>
              simp only [handleFrame, hb]
              cases ht : dictLookup w.st.pending_by_id (pyStr f.getId) with
              | none => exact keysNodup_dictRemove _ _ hn
              | some t => exact keysNodup_dictRemove _ _ hn

theorem replyHit_bound (w : World) (e : Event) (k : String)
    (hn : keysNodup w.st.pending_by_id) :
    replyHit w k e +
      (if (dictLookup (step w e).1.st.pending_by_id k).isSome = true
       then 1 else 0) ≤
    regHit w k e +
      (if (dictLookup w.st.pending_by_id k).isSome = true then 1 else 0) := by
  cases e with
  | connect c => simp [replyHit, regHit, step]
  | disconnect c =>
      simp only [replyHit, regHit, step, dictLookup_dropConn _ _ _ hn]
      by_cases hc : dictLookup w.st.pending_by_id k = some c
      · simp [hc]
      · simp only [if_neg hc]
        omega
  | recv c m =>
      cases m with
      | none => simp [replyHit, regHit, step]
      | some f =>
          cases hb : classify f with
          | hello => simp [replyHit, regHit, step, handleFrame, hb]
          | event => simp [replyHit, regHit, step, handleFrame, hb]
          | other => simp [replyHit, regHit, step, handleFrame, hb]
          | request =>
              cases hext : w.st.extension_ws with
              | none =>
                  simp [replyHit, regHit, step, handleFrame, hb, hext]
              | some ext =>
                  by_cases hk : pyStr f.getId = k
                  · subst hk
                    simp [replyHit, regHit, step, handleFrame, hb, hext,
                      dictLookup_set_self]
                  · simp [replyHit, regHit, step, handleFrame, hb, hext, hk,
                      dictLookup_set_ne _ _ _ _ (fun h => hk h.symm)]
          | reply =>
              by_cases hk : pyStr f.getId = k
              · subst hk
                cases ht : dictLookup w.st.pending_by_id (pyStr f.getId) with
                | none =>
                    simp [replyHit, regHit, step, handleFrame, hb, ht,
                      dictLookup_remove_self _ _ hn]
                | some t =>
                    simp [replyHit, regHit, step, handleFrame, hb, ht,
                      dictLookup_remove_self _ _ hn]
              · cases ht : dictLookup w.st.pending_by_id (pyStr f.getId) with
                | none =>
                    simp [replyHit, regHit, step, handleFrame, hb, ht, hk,
                      dictLookup_remove_ne _ _ _ (fun h => hk h.symm)]
                | some t =>
                    simp [replyHit, regHit, step, handleFrame, hb, ht, hk,
                      dictLookup_remove_ne _ _ _ (fun h => hk h.symm)]

theorem countReplyHits_le_aux (tr : List Event) (w : World) (k : String)
    (hn : keysNodup w.st.pending_by_id) :
    countReplyHits w k tr ≤ countRegs w k tr +
      (if (dictLookup w.st.pending_by_id k).isSome = true then 1 else 0) := by
  induction tr generalizing w with
  | nil => simp [countReplyHits, countRegs]
  | cons e es ih =>
      simp only [countReplyHits, countRegs]
      have h1 := ih (step w e).1 (keysNodup_step w e hn)
      have h2 := replyHit_bound w e k hn
      omega

theorem noHello_step (w : World) (e : Event)
    (hw : w.st.extension_ws = none) (hp : w.st.pending_by_id = [])
    (h : ∀ c f, e = Event.recv c (some f) → classify f ≠ Branch.hello) :
    (step w e).1.st.extension_ws = none ∧
      (step w e).1.st.pending_by_id = [] := by
  cases e with
  | connect c => exact ⟨hw, hp⟩
  | disconnect c =>
      constructor
      · simp [step, hw]
      · simp only [step]
        rw [hp]
        rfl
  | recv c m =>
      cases m with
      | none => exact ⟨hw, hp⟩
      | some f =>
          have hf := h c f rfl
          cases hb : classify f with
          | hello => exact absurd hb hf
          | event => exact ⟨by simp [step, handleFrame, hb, hw],
              by simp [step, handleFrame, hb, hp]⟩
          | other => exact ⟨by simp [step, handleFrame, hb, hw],
              by simp [step, handleFrame, hb, hp]⟩
          | request => exact ⟨by simp [step, handleFrame, hb, hw],
              by simp [step, handleFrame, hb, hw, hp]⟩
          | reply => exact ⟨by simp [step, handleFrame, hb, hw, hp,
                dictLookup, dictRemove],
              by simp [step, handleFrame, hb, hp, dictLookup, dictRemove]⟩

theorem noHello_run (w : World) (tr : List Event)
    (hw : w.st.extension_ws = none) (hp : w.st.pending_by_id = [])
    (h : ∀ c f, Event.recv c (some f) ∈ tr → classify f ≠ Branch.hello) :
    (run w tr).st.extension_ws = none ∧ (run w tr).st.pending_by_id = [] := by
  induction tr generalizing w with
  | nil => exact ⟨hw, hp⟩
  | cons e es ih =>
      simp only [run]
      have hstep := noHello_step w e hw hp
        (fun c f he => h c f (he ▸ List.mem_cons_self e es))
      exact ih (step w e).1 hstep.1 hstep.2
        (fun c f hm => h c f (List.mem_cons_of_mem e hm))

theorem filter_key_nil (p : Pending) (k : String)
    (h : k ∉ p.map Prod.fst) : p.filter (fun kv => kv.1 == k) = [] := by
  induction p with
  | nil => rfl
  | cons head rest ih =>
      obtain ⟨k₁, v₁⟩ := head
      simp only [List.map_cons, List.mem_cons] at h
      push_neg at h
      have : ((k₁, v₁).1 == k) = false := by
        simp [Ne.symm h.1]
      simp only [List.filter_cons, this]
      exact ih h.2

theorem filter_key_length_one (p : Pending) (k : String) (v : ConnId)
    (hn : keysNodup p) (h : dictLookup p k = some v) :
    (p.filter (fun kv => kv.1 == k)).length = 1 := by
  induction p with
  | nil => simp [dictLookup] at h
  | cons head rest ih =>
      obtain ⟨k₁, v₁⟩ := head
      simp only [keysNodup, List.map_cons, List.nodup_cons] at hn
      by_cases hk : k₁ = k
      · subst hk
        have : ((k₁, v₁).1 == k₁) = true := by simp
        simp only [List.filter_cons, this, List.length_cons]
        rw [filter_key_nil rest k₁ hn.1]
        rfl
      · have : ((k₁, v₁).1 == k) = false := by simp [hk]
        simp only [List.filter_cons, this]
        rw [dictLookup_cons_ne _ _ _ _ (fun hh => hk hh.symm)] at h
        exact ih hn.2 h

/-- C1: Response Router.  For a reply-classified frame processed in any
reachable broker world, the coerced correlation id's entry is removed from
the pending map; if an entry existed, the attempted sends are exactly the
reply frame forwarded unchanged to the recorded connection, and that
connection is still open; if no entry existed, nothing is sent to anyone.
The send list being exactly the forward (or empty) also shows no response
is synthesized back toward the sender. -/
theorem C1_reply_routing (w : World) (c : ConnId) (f : Frame)
    (hR : Reachable w) (hb : classify f = Branch.reply) :
    dictLookup (handleFrame w c f).1.st.pending_by_id (pyStr f.getId) = none ∧
    (∀ t, dictLookup w.st.pending_by_id (pyStr f.getId) = some t →
      (handleFrame w c f).2 = [⟨t, f⟩] ∧ t ∈ w.openConns) ∧
    (dictLookup w.st.pending_by_id (pyStr f.getId) = none →
      (handleFrame w c f).2 = []) := by
  obtain ⟨hPend, hNodup, hExt⟩ := Reachable_inv w hR
  refine ⟨?_, ?_, ?_⟩
  · cases ht : dictLookup w.st.pending_by_id (pyStr f.getId) with
    | none =>
        simp only [handleFrame, hb, ht]
        exact dictLookup_remove_self _ _ hNodup
    | some t =>
        simp only [handleFrame, hb, ht]
        exact dictLookup_remove_self _ _ hNodup
  · intro t ht
    simp only [handleFrame, hb, ht]
    exact ⟨trivial, hPend _ t ht⟩
  · intro ht
    simp only [handleFrame, hb, ht]

/-- Witness for C1: after extension hello on connection 0 and a pending
request "1" from connection 1, a reply routes to 1 and clears the entry. -/
theorem C1_witness :
    (handleFrame (run World.init trPend) 0 replyF).2 = [⟨1, replyF⟩] ∧
    dictLookup (handleFrame (run World.init trPend) 0 replyF).1.st.pending_by_id
      (pyStr replyF.getId) = none := by
  have h := C1_reply_routing (run World.init trPend) 0 replyF
    ⟨trPend, rfl, rfl⟩ rfl
  exact ⟨(h.2.1 1 rfl).1, h.1⟩

/-- C2: Request Router with empty extension slot.  A request-classified
frame arriving while the slot is empty leaves the whole world (pending map
included) unchanged and sends exactly one synthesized error reply, shaped
with the same id, ok false and error "extension not connected", back to the
originating connection; consequently, along any event sequence containing
no hello-classified frame, the extension slot stays empty and the pending
map stays empty. -/
theorem C2_extension_absent :
    (∀ w c f, w.st.extension_ws = none → classify f = Branch.request →
      handleFrame w c f = (w, [⟨c, errorReply f.getId⟩])) ∧
    (∀ tr, (∀ c f, Event.recv c (some f) ∈ tr → classify f ≠ Branch.hello) →
      (run World.init tr).st.extension_ws = none ∧
      (run World.init tr).st.pending_by_id = []) := by
  constructor
  · intro w c f hext hb
    simp only [handleFrame, hb, hext]
  · intro tr h
    exact noHello_run World.init tr rfl rfl h

/-- Witness for C2: a request against the fresh broker gets the error reply
with the map untouched, and the hello-free trace keeps both slots empty. -/
theorem C2_witness :
    handleFrame World.init 0 reqF = (World.init, [⟨0, errorReply reqF.getId⟩]) ∧
    (run World.init trNoHello).st.extension_ws = none ∧
    (run World.init trNoHello).st.pending_by_id = [] := by
  have h := C2_extension_absent
  refine ⟨h.1 World.init 0 reqF rfl rfl, h.2 trNoHello ?_⟩
  intro c f hm
  simp only [trNoHello, List.mem_cons, List.not_mem_nil, or_false] at hm
  rcases hm with hm | hm
  · simp at hm
  · simp only [Event.recv.injEq, Option.some.injEq] at hm
    obtain ⟨rfl, rfl⟩ := hm
    decide

/-- C3: Disconnect Reaper.  Closing a connection in any reachable world
sends nothing (no error is synthesized for dropped pending entries), clears
the extension slot exactly when that connection occupies it (and leaves the
slot untouched otherwise), removes the connection from the controller set
while leaving every other connection's membership unchanged, and removes
exactly the pending entries whose recorded target is that connection,
leaving every other entry unchanged. -/
theorem C3_disconnect_cleanup (w : World) (c : ConnId) (hR : Reachable w) :
    (step w (Event.disconnect c)).2 = [] ∧
    (step w (Event.disconnect c)).1.st.extension_ws =
      (if w.st.extension_ws = some c then none else w.st.extension_ws) ∧
    c ∉ (step w (Event.disconnect c)).1.st.controller_clients ∧
    (∀ d, d ≠ c →
      ((d ∈ (step w (Event.disconnect c)).1.st.controller_clients) ↔
        d ∈ w.st.controller_clients)) ∧
    (∀ k, dictLookup (step w (Event.disconnect c)).1.st.pending_by_id k =
      (if dictLookup w.st.pending_by_id k = some c then none
       else dictLookup w.st.pending_by_id k)) := by
  obtain ⟨hPend, hNodup, hExt⟩ := Reachable_inv w hR
  refine ⟨rfl, ?_, ?_, ?_, ?_⟩
  · simp only [step]
    by_cases hc : w.st.extension_ws = some c
    · rw [if_pos ⟨hExt c hc, hc⟩, if_pos hc]
    · rw [if_neg (fun h => hc h.2), if_neg hc]
  · simp only [step]
    intro hmem
    exact ((mem_removeConn c c _).mp hmem).2 rfl
  · intro d hd
    simp only [step]
    rw [mem_removeConn]
    exact ⟨fun h => h.1, fun h => ⟨h, hd⟩⟩
  · intro k
    simp only [step]
    exact dictLookup_dropConn _ _ _ hNodup

/-- Witness for C3: disconnecting the controller whose request "1" is
pending sends nothing and leaves no entry for "1". -/
theorem C3_witness :
    (step (run World.init trPend) (Event.disconnect 1)).2 = [] ∧
    dictLookup
      (step (run World.init trPend) (Event.disconnect 1)).1.st.pending_by_id
      "1" = none := by
  have h := C3_disconnect_cleanup (run World.init trPend) 1 ⟨trPend, rfl, rfl⟩
  refine ⟨h.1, ?_⟩
  rw [h.2.2.2.2 "1"]
  decide

/-- C4: at-most-once delivery per correlation id.  Along any event sequence
from the initial broker, the number of forwarded replies for a given key
(each of which goes to the single recorded target) never exceeds the number
of extension-present request registrations of that key: a routed or reaped
entry is gone, so a later reply with the same id finds no entry and is
discarded unless a new request re-registers the id. -/
theorem C4_at_most_once (k : String) (tr : List Event) :
    countReplyHits World.init k tr ≤ countRegs World.init k tr := by
  have h := countReplyHits_le_aux tr World.init k
    (by simp [World.init, keysNodup])
  simpa [World.init, dictLookup] using h

/-- C5 fails on the code: after `trC5a`, connection 0 has been treated as a
controller — it sits in the controller set and its tool request was
registered under "1" and forwarded to extension 9 — yet one more hello
frame from 0 makes it the extension slot occupant and removes it from the
controller set, so a connection's role does change while it stays open. -/
theorem C5_counterexample :
    wfFrom World.init trC5 = true ∧
    (0 ∈ (run World.init trC5a).st.controller_clients) ∧
    sendsOf World.init trC5a = [⟨9, reqF⟩] ∧
    dictLookup (run World.init trC5a).st.pending_by_id "1" = some 0 ∧
    (run World.init trC5).st.extension_ws = some 0 ∧
    (0 ∉ (run World.init trC5).st.controller_clients) := by
  decide

/-- C5 amended: classification is not sticky.  A connection starts
unclassified and is classified by its first classifying message, but the
hello branch is unguarded: a hello-classified frame from any connection —
whatever its prior traffic, including one currently in the controller set
with pending requests — unconditionally installs the sender in the
extension slot, removes it from the controller set, marks its
`is_extension` flag, and changes nothing else. -/
theorem C5_hello_reclassifies (w : World) (c : ConnId) (f : Frame)
    (hb : classify f = Branch.hello) :
    handleFrame w c f =
      ({ w with
          helloed := insertConn c w.helloed,
          st := { w.st with
            controller_clients := removeConn c w.st.controller_clients,
            extension_ws := some c } }, []) := by
  simp only [handleFrame, hb]

/-- Witness for the amended C5, at the world where connection 0 is an
active controller. -/
theorem C5_witness :
    handleFrame (run World.init trC5a) 0 helloF =
      ({ run World.init trC5a with
          helloed := insertConn 0 (run World.init trC5a).helloed,
          st := { (run World.init trC5a).st with
            controller_clients :=
              removeConn 0 (run World.init trC5a).st.controller_clients,
            extension_ws := some 0 } }, []) :=
  C5_hello_reclassifies (run World.init trC5a) 0 helloF rfl

/-- C6 fails on the code: after connection 2 displaces extension 0 (which
stays open with its era's entry "1" still pending), a reply-shaped frame
from the displaced 0 IS still routed: the entry is popped and the payload
forwarded to the originating controller 1 — routing is by id alone and
never consults the sender. -/
theorem C6_counterexample :
    wfFrom World.init (trC6a ++ [Event.recv 0 (some replyF)]) = true ∧
    (run World.init trC6a).st.extension_ws = some 2 ∧
    (0 ∈ (run World.init trC6a).openConns) ∧
    dictLookup (run World.init trC6a).st.pending_by_id "1" = some 1 ∧
    (step (run World.init trC6a) (Event.recv 0 (some replyF))).2 =
      [⟨1, replyF⟩] := by
  decide

/-- C6 amended: displacement does not gate reply routing.  The reply branch
never consults the sending connection, so a reply-shaped frame from the
displaced old extension is processed exactly as the same frame from anyone
else, and is forwarded per the pending map. -/
theorem C6_reply_sender_agnostic (w : World) (c c' : ConnId) (f : Frame)
    (hb : classify f = Branch.reply) :
    handleFrame w c f = handleFrame w c' f := by
  simp only [handleFrame, hb]

/-- Witness for the amended C6, at the displaced-extension world. -/
theorem C6_witness :
    handleFrame (run World.init trC6a) 0 replyF =
      handleFrame (run World.init trC6a) 5 replyF :=
  C6_reply_sender_agnostic (run World.init trC6a) 0 5 replyF rfl

/-- C7: correlation id reuse silently overwrites.  Forwarding a request
whose coerced id is already pending replaces the mapping: afterwards the map
holds exactly one entry for that key, pointing at the newer requester;
every other key is untouched; and a subsequent reply with that key is
forwarded to the newer requester, never to the original one. -/
theorem C7_pending_overwrite (w : World) (c c₀ ext : ConnId) (f : Frame)
    (hR : Reachable w) (hb : classify f = Branch.request)
    (hext : w.st.extension_ws = some ext)
    (hold : dictLookup w.st.pending_by_id (pyStr f.getId) = some c₀) :
    dictLookup (handleFrame w c f).1.st.pending_by_id (pyStr f.getId) =
      some c ∧
    ((handleFrame w c f).1.st.pending_by_id.filter
      (fun kv => kv.1 == pyStr f.getId)).length = 1 ∧
    (∀ k, k ≠ pyStr f.getId →
      dictLookup (handleFrame w c f).1.st.pending_by_id k =
        dictLookup w.st.pending_by_id k) ∧
    (∀ c'' g, classify g = Branch.reply → pyStr g.getId = pyStr f.getId →
      (handleFrame (handleFrame w c f).1 c'' g).2 = [⟨c, g⟩]) := by
  obtain ⟨hPend, hNodup, hExt⟩ := Reachable_inv w hR
  simp only [handleFrame, hb, hext]
  refine ⟨dictLookup_set_self _ _ _, ?_, ?_, ?_⟩
  · exact filter_key_length_one _ _ c (keysNodup_dictSet _ _ _ hNodup)
      (dictLookup_set_self _ _ _)
  · intro k hk
    exact dictLookup_set_ne _ _ _ _ hk
  · intro c'' g hg hkey
    have hl : dictLookup (dictSet w.st.pending_by_id (pyStr f.getId) c)
        (pyStr g.getId) = some c := by
      rw [hkey]
      exact dictLookup_set_self _ _ _
    simp only [handleFrame, hg, hl]

/-- Witness for C7: connection 2 reuses id "1" already pending for
connection 1; the next reply for "1" goes to 2. -/
theorem C7_witness :
    dictLookup (handleFrame (run World.init (trPend ++ [Event.connect 2])) 2
      reqF).1.st.pending_by_id (pyStr reqF.getId) = some 2 ∧
    (handleFrame (handleFrame (run World.init (trPend ++ [Event.connect 2]))
      2 reqF).1 0 replyF).2 = [⟨2, replyF⟩] := by
  have h := C7_pending_overwrite
    (run World.init (trPend ++ [Event.connect 2])) 2 1 0 reqF
    ⟨trPend ++ [Event.connect 2], rfl, rfl⟩ rfl rfl rfl
  exact ⟨h.1, h.2.2.2 0 replyF rfl rfl⟩

/-- C8: the two duplicated bridge variants are behaviorally equivalent:
over every transport-sane event sequence from the initial state both
produce the same final broker world (extension slot, controller set,
pending map) and the same sequence of attempted sends.  The only textual
difference — variant B guarding reply forwarding by `not target.closed` —
never fires, because every pending target is still open. -/
theorem C8_variants_equivalent (tr : List Event)
    (h : wfFrom World.init tr = true) :
    runB World.init tr = run World.init tr ∧
    sendsOfB World.init tr = sendsOf World.init tr :=
  runB_eq World.init tr Inv_init h

/-- Witness for C8 on a trace exercising hello, requests, displacement and
reply forwarding. -/
theorem C8_witness :
    runB World.init (trC6a ++ [Event.recv 0 (some replyF)]) =
      run World.init (trC6a ++ [Event.recv 0 (some replyF)]) ∧
    sendsOfB World.init (trC6a ++ [Event.recv 0 (some replyF)]) =
      sendsOf World.init (trC6a ++ [Event.recv 0 (some replyF)]) :=
  C8_variants_equivalent (trC6a ++ [Event.recv 0 (some replyF)]) (by decide)

/-- C9: dispatch precedence of the shape-check cascade: the hello check
wins first; otherwise any truthy event field makes the frame an ignored
event, even when tool, id, ok or error are also present; otherwise tool
plus id takes the request path even when ok or error is present; otherwise
id plus an outcome field takes the reply path; each frame falls in exactly
one branch, so a frame matching an earlier branch never reaches a later
one. -/
theorem C9_dispatch_precedence (f : Frame) :
    (classify f = Branch.hello ↔
      pyEq f.getEvent (PyVal.PStr "hello") = true) ∧
    (classify f = Branch.event ↔
      (pyEq f.getEvent (PyVal.PStr "hello") = false ∧
       pyTruthy f.getEvent = true)) ∧
    (classify f = Branch.request ↔
      (pyEq f.getEvent (PyVal.PStr "hello") = false ∧
       pyTruthy f.getEvent = false ∧
       f.tool.isSome = true ∧ f.id.isSome = true)) ∧
    (classify f = Branch.reply ↔
      (pyEq f.getEvent (PyVal.PStr "hello") = false ∧
       pyTruthy f.getEvent = false ∧
       ¬(f.tool.isSome = true ∧ f.id.isSome = true) ∧
       f.id.isSome = true ∧
       (f.ok.isSome = true ∨ f.error.isSome = true))) := by
  unfold classify
  split_ifs with h1 h2 h3 h4 <;>
    simp_all [Bool.and_eq_true, Bool.or_eq_true, Bool.not_eq_true]
  cases htool : f.tool with
  | none => rfl
  | some v =>
      rw [h3 (by rw [htool]; rfl)] at h4
      simp at h4

/-- C10: correlation ids are coerced to strings at both ends of the pending
map: the request path stores under `pyStr` of the message id, the reply
path pops `pyStr` of its id and routes by that key alone, and the number 1
and the string "1" coerce to the same key, so they correlate. -/
theorem C10_id_coercion :
    (∀ w c ext f, w.st.extension_ws = some ext →
      classify f = Branch.request →
      (handleFrame w c f).1.st.pending_by_id =
        dictSet w.st.pending_by_id (pyStr f.getId) c) ∧
    (∀ w c f, classify f = Branch.reply →
      (handleFrame w c f).1.st.pending_by_id =
        dictRemove w.st.pending_by_id (pyStr f.getId) ∧
      (handleFrame w c f).2 =
        (match dictLookup w.st.pending_by_id (pyStr f.getId) with
         | some t => [⟨t, f⟩]
         | none => [])) ∧
    pyStr (PyVal.PInt 1) = pyStr (PyVal.PStr "1") := by
  refine ⟨?_, ?_, rfl⟩
  · intro w c ext f hext hb
    simp only [handleFrame, hb, hext]
  · intro w c f hb
    cases ht : dictLookup w.st.pending_by_id (pyStr f.getId) with
    | none =>
        exact ⟨by simp only [handleFrame, hb, ht],
          by simp only [handleFrame, hb, ht]⟩
    | some t =>
        exact ⟨by simp only [handleFrame, hb, ht],
          by simp only [handleFrame, hb, ht]⟩

/-- Witness for C10: a request whose id is the number 1 and a reply whose
id is the string "1" use the same pending key. -/
theorem C10_witness :
    (handleFrame (run World.init trExt) 1 reqIntF).1.st.pending_by_id =
      dictSet (run World.init trExt).st.pending_by_id (pyStr reqIntF.getId)
        1 ∧
    (handleFrame (handleFrame (run World.init trExt) 1 reqIntF).1 0
        replyF).2 =
      (match dictLookup (handleFrame (run World.init trExt) 1
          reqIntF).1.st.pending_by_id (pyStr replyF.getId) with
       | some t => [⟨t, replyF⟩]
       | none => []) ∧
    pyStr (PyVal.PInt 1) = pyStr (PyVal.PStr "1") := by
  have h := C10_id_coercion
  exact ⟨h.1 (run World.init trExt) 1 0 reqIntF rfl rfl,
    (h.2.1 (handleFrame (run World.init trExt) 1 reqIntF).1 0 replyF rfl).2,
    h.2.2⟩

end Bridge
